import Mathlib

/-!
# Verification of `vaultsearch.py`

A shallow embedding of the `vaultsearch` utility: a script that walks a
directory tree, detects Ansible vault files by their first-line marker,
decrypts them through the external `VaultLib` capability, and searches the
decrypted plaintext for a pattern, printing matching file paths and
highlighted matching lines.

Modelling conventions:
* Python `str` values are `List Char` (sequences of Unicode code points);
  raw file bytes are `List Nat` (each byte `< 256`).
* The regular-expression engine is external to the repository; we embed its
  behaviour on the fragment the proofs quantify over: nonempty literal
  patterns, for which `re.search`, `re.sub` and `re.finditer` semantics are
  leftmost, non-overlapping scanning.  A pattern is a nonempty character
  list, represented as `Char × List Char`.
* External capabilities (pattern compilation, vault secret setup, vault
  decryption, the OS view of a file at decrypt time) are parameters of the
  driver, mirroring the spec's "external collaborators".
* The scanning functions consume at least one element per step; they are
  written with an explicit structural bound (`fuel`), instantiated with the
  input length, so that all definitions evaluate inside the kernel.
-/

namespace Vaultsearch

/-- ANSI color code `BRED` from the script (`"\033[01;31m"`), as characters. -/
def bred : List Char := ['\x1b', '[', '0', '1', ';', '3', '1', 'm']

/-- ANSI color code `ENDC` from the script (`"\033[0m"`), as characters. -/
def endc : List Char := ['\x1b', '[', '0', 'm']

/-- ANSI color code `BGRN` from the script (`"\033[01;92m"`), as characters. -/
def bgrn : List Char := ['\x1b', '[', '0', '1', ';', '9', '2', 'm']

/-- ANSI color code `BYEL` from the script (`"\033[01;33m"`), as characters. -/
def byel : List Char := ['\x1b', '[', '0', '1', ';', '3', '3', 'm']

/-- A compiled pattern in the literal fragment: a nonempty character list. -/
def Pat : Type := Char × List Char

/-- The character list denoted by a pattern. -/
def patList (p : Pat) : List Char := p.1 :: p.2

/-- Length of a pattern; always positive. -/
def patLen (p : Pat) : Nat := p.2.length + 1

/-- `isPrefChars p s`: `p` occurs at the very start of `s`. -/
def isPrefChars : List Char → List Char → Bool
  | [], _ => true
  | _ :: _, [] => false
  | a :: as, b :: bs => a == b && isPrefChars as bs

/-- `occursIn p s`: the pattern occurs somewhere in `s`
(Python `pattern.search(s) is not None` for a literal pattern). -/
def occursIn (p : Pat) : List Char → Bool
  | [] => false
  | s@(_ :: t) => isPrefChars (patList p) s || occursIn p t

/-- `isSubChars p s`: the character list `p` occurs contiguously somewhere
in `s` (Python `p in s` on strings). -/
def isSubChars (p : List Char) : List Char → Bool
  | [] => p.isEmpty
  | s@(_ :: t) => (s.take p.length == p) || isSubChars p t

/-- Python `str.lstrip()`: remove leading whitespace. -/
def lstripChars : List Char → List Char
  | [] => []
  | a :: as => if a.isWhitespace then lstripChars as else a :: as

/-- `noLeadWs s`: `s` does not start with a whitespace character. -/
def noLeadWs : List Char → Bool
  | [] => true
  | a :: _ => !a.isWhitespace

/-- Python `str.splitlines()` restricted to `'\n'`-delimited text: splits at
newlines and produces no trailing empty line for text ending in `'\n'`. -/
def splitlinesChars : List Char → List (List Char)
  | [] => []
  | c :: t =>
    if c = '\n' then [] :: splitlinesChars t
    else
      match splitlinesChars t with
      | [] => [[c]]
      | l :: ls => (c :: l) :: ls

/-- Bounded body of `subPat`; the bound is consumed one unit per scan step. -/
def subPatAux (p : Pat) : Nat → List Char → List Char
  | _, [] => []
  | 0, s => s
  | fuel + 1, c :: t =>
    if isPrefChars (patList p) (c :: t) then
      bred ++ patList p ++ endc ++ subPatAux p fuel ((c :: t).drop (patLen p))
    else
      c :: subPatAux p fuel t

/-- `pattern.sub(lambda m: BRED + m[0] + ENDC, line)` for a literal pattern:
leftmost non-overlapping scan, each occurrence replaced by itself wrapped in
the highlight markers. -/
def subPat (p : Pat) (s : List Char) : List Char := subPatAux p s.length s

/-- `highlight_matches` (src/vaultsearch.py:134-144): substitute each match
with its marker-wrapped copy, then strip leading whitespace. -/
def highlight_matches (line : List Char) (p : Pat) : List Char :=
  lstripChars (subPat p line)

/-- Bounded body of `spansFrom`. -/
def spansFromAux (p : Pat) : Nat → List Char → Nat → List (Nat × Nat)
  | _, [], _ => []
  | 0, _, _ => []
  | fuel + 1, c :: t, i =>
    if isPrefChars (patList p) (c :: t) then
      (i, i + patLen p) :: spansFromAux p fuel ((c :: t).drop (patLen p)) (i + patLen p)
    else
      spansFromAux p fuel t (i + 1)

/-- Match spans of the leftmost non-overlapping scan, as half-open index
intervals `(start, stop)` into the original string, starting the scan at
absolute index `i`. -/
def spansFrom (p : Pat) (s : List Char) (i : Nat) : List (Nat × Nat) :=
  spansFromAux p s.length s i

/-- The match spans of a literal pattern over a string
(Python `pattern.finditer` span list). -/
def matchSpans (p : Pat) (s : List Char) : List (Nat × Nat) :=
  spansFrom p s 0

/-- `extractRange s i j`: the characters of `s` at indices `[i, j)`. -/
def extractRange (s : List Char) (i j : Nat) : List Char :=
  (s.drop i).take (j - i)

/-- Splice highlight markers into `s` at the given spans (assumed ascending),
having already emitted everything before index `i`. -/
def spliceAux (s : List Char) : Nat → List (Nat × Nat) → List Char
  | i, [] => s.drop i
  | i, (a, b) :: rest =>
    extractRange s i a ++ bred ++ extractRange s a b ++ endc ++ spliceAux s b rest

/-- The Matcher/Highlighter contract stated positionally: wrap exactly the
match spans of the line in markers, in place, then strip leading whitespace. -/
def spansRender (p : Pat) (line : List Char) : List Char :=
  lstripChars (spliceAux line 0 (matchSpans p line))

/-- Bounded body of `stripMarkers`. -/
def stripMarkersAux : Nat → List Char → List Char
  | _, [] => []
  | 0, s => s
  | fuel + 1, c :: t =>
    if isPrefChars bred (c :: t) then stripMarkersAux fuel ((c :: t).drop bred.length)
    else if isPrefChars endc (c :: t) then stripMarkersAux fuel ((c :: t).drop endc.length)
    else c :: stripMarkersAux fuel t

/-- Remove every highlight-start (`bred`) and reset (`endc`) marker,
scanning left to right. -/
def stripMarkers (s : List Char) : List Char := stripMarkersAux s.length s

/-! ## Bytes and UTF-8 decoding

The script reads candidate files twice: once in binary mode for the
signature check (`is_vault_file`), and once in text mode with strict UTF-8
decoding inside `decrypt_vault_file`.  The decryption output (`bytes`) is
decoded with `errors="ignore"`.  We model bytes as `Nat` and give the
decoding disciplines explicitly. -/

/-- Is `b` a UTF-8 continuation byte (`0x80..0xBF`)? -/
def contByte (b : Nat) : Bool := 0x80 ≤ b && b ≤ 0xBF

/-- Allowed second byte of a 3-byte sequence with lead byte `b`
(RFC 3629: `E0` excludes overlongs, `ED` excludes surrogates). -/
def cont3Ok (b b1 : Nat) : Bool :=
  if b = 0xE0 then 0xA0 ≤ b1 && b1 ≤ 0xBF
  else if b = 0xED then 0x80 ≤ b1 && b1 ≤ 0x9F
  else contByte b1

/-- Allowed second byte of a 4-byte sequence with lead byte `b`
(RFC 3629: `F0` excludes overlongs, `F4` caps at `U+10FFFF`). -/
def cont4Ok (b b1 : Nat) : Bool :=
  if b = 0xF0 then 0x90 ≤ b1 && b1 ≤ 0xBF
  else if b = 0xF4 then 0x80 ≤ b1 && b1 ≤ 0x8F
  else contByte b1

/-- Decode one UTF-8 code point from the head of a byte list, returning the
character and the remaining bytes, or `none` if the head is not a valid
(shortest-form) encoding. -/
def decodeOne : List Nat → Option (Char × List Nat)
  | [] => none
  | b :: rest =>
    if b < 0x80 then some (Char.ofNat b, rest)
    else if 0xC2 ≤ b && b ≤ 0xDF then
      match rest with
      | b1 :: rest1 =>
        if contByte b1 then some (Char.ofNat ((b - 0xC0) * 64 + (b1 - 0x80)), rest1)
        else none
      | [] => none
    else if 0xE0 ≤ b && b ≤ 0xEF then
      match rest with
      | b1 :: b2 :: rest2 =>
        if cont3Ok b b1 && contByte b2 then
          some (Char.ofNat ((b - 0xE0) * 4096 + (b1 - 0x80) * 64 + (b2 - 0x80)), rest2)
        else none
      | _ => none
    else if 0xF0 ≤ b && b ≤ 0xF4 then
      match rest with
      | b1 :: b2 :: b3 :: rest3 =>
        if cont4Ok b b1 && contByte b2 && contByte b3 then
          some (Char.ofNat
            ((b - 0xF0) * 262144 + (b1 - 0x80) * 4096 + (b2 - 0x80) * 64 + (b3 - 0x80)), rest3)
        else none
      | _ => none
    else none

/-- Bounded body of `decodeUtf8Strict`. -/
def decodeUtf8StrictAux : Nat → List Nat → Option (List Char)
  | _, [] => some []
  | 0, _ => none
  | fuel + 1, bs =>
    match decodeOne bs with
    | some (c, r) => (decodeUtf8StrictAux fuel r).map (c :: ·)
    | none => none

/-- Strict UTF-8 decoding (Python `open(..., encoding="utf-8")` +
`f.read()`): `none` models an uncaught `UnicodeDecodeError`. -/
def decodeUtf8Strict (bs : List Nat) : Option (List Char) :=
  decodeUtf8StrictAux bs.length bs

/-- Bounded body of `decodeUtf8Ignore`. -/
def decodeUtf8IgnoreAux : Nat → List Nat → List Char
  | _, [] => []
  | 0, _ => []
  | fuel + 1, bs@(_ :: t) =>
    match decodeOne bs with
    | some (c, r) => c :: decodeUtf8IgnoreAux fuel r
    | none => decodeUtf8IgnoreAux fuel t

/-- Lenient UTF-8 decoding with `errors="ignore"` (used on the decryption
output at src/vaultsearch.py:125): bytes at which decoding fails are
dropped, one byte per recovery step. -/
def decodeUtf8Ignore (bs : List Nat) : List Char :=
  decodeUtf8IgnoreAux bs.length bs

/-- Bounded body of `decodeUtf8ReplaceSpec`. -/
def decodeUtf8ReplaceSpecAux : Nat → List Nat → List Char
  | _, [] => []
  | 0, _ => []
  | fuel + 1, bs@(_ :: t) =>
    match decodeOne bs with
    | some (c, r) => c :: decodeUtf8ReplaceSpecAux fuel r
    | none => Char.ofNat 0xFFFD :: decodeUtf8ReplaceSpecAux fuel t

/-- Modelled from the spec: lenient decoding where each invalid byte
sequence is "replaced with a replacement character rather than raising an
error or being dropped" — `errors="replace"`, emitting `U+FFFD` at each
recovery step.  This is the comparison definition for the decoding-policy
claim; the code itself uses `errors="ignore"`. -/
def decodeUtf8ReplaceSpec (bs : List Nat) : List Char :=
  decodeUtf8ReplaceSpecAux bs.length bs

/-! ## Signature detection and the tree walk -/

/-- The vault marker bytes, `b"$ANSIBLE_VAULT"`. -/
def markerBytes : List Nat := "$ANSIBLE_VAULT".data.map Char.toNat

/-- `isSubBytes p s`: `p` occurs contiguously somewhere in `s`. -/
def isSubBytes (p : List Nat) : List Nat → Bool
  | [] => p.isEmpty
  | s@(_ :: t) => (s.take p.length == p) || isSubBytes p t

/-- Python `f.readline()` on a binary file: the bytes up to and including
the first `b"\n"` (the whole content if there is none). -/
def firstLineBytes : List Nat → List Nat
  | [] => []
  | b :: t => if b = 10 then [10] else b :: firstLineBytes t

/-- `is_vault_file` (src/vaultsearch.py:70-85) on the file's content:
read the first line in binary mode and test `b"$ANSIBLE_VAULT" in` it. -/
def is_vault_file (content : List Nat) : Bool :=
  isSubBytes markerBytes (firstLineBytes content)

/-- A directory entry as seen by `os.scandir` with `follow_symlinks=False`:
a regular file with raw byte content, a directory with entries, or anything
else (symlink, special file) for which both `is_file` and `is_dir` are
false. -/
inductive FSEntry where
  | file (name : String) (content : List Nat)
  | dir (name : String) (entries : List FSEntry)
  | other (name : String)

mutual

/-- The walk's treatment of a single directory entry
(src/vaultsearch.py:98-107): a regular file of nonzero size (`st_size > 0`)
whose first line holds the marker is yielded; a directory not named
`".git"` is recursed into; anything else yields nothing. -/
def findVaultEntry : FSEntry → List (List String)
  | .file n c => if 0 < c.length ∧ is_vault_file c then [[n]] else []
  | .dir n sub => if n ≠ ".git" then (find_vault_files sub).map (fun q => n :: q) else []
  | .other _ => []

/-- `find_vault_files` (src/vaultsearch.py:88-110) over the entry list of
the search root, in directory-entry order, depth-first.  Paths are
component lists relative to the root. -/
def find_vault_files : List FSEntry → List (List String)
  | [] => []
  | e :: rest => findVaultEntry e ++ find_vault_files rest

end

/-- `resolvesToFile es path c`: following `path` from the entry list `es`,
entering only directory entries at interior components, ends at a regular
file entry whose content is `c`.  This is what it means for a walked path
to denote a regular file of the tree. -/
inductive resolvesToFile : List FSEntry → List String → List Nat → Prop where
  | here {es : List FSEntry} {n : String} {c : List Nat}
      (hmem : FSEntry.file n c ∈ es) : resolvesToFile es [n] c
  | deeper {es : List FSEntry} {n : String} {sub : List FSEntry}
      {q : List String} {c : List Nat}
      (hmem : FSEntry.dir n sub ∈ es) (hq : resolvesToFile sub q c) :
      resolvesToFile es (n :: q) c

/-! ## Decryptor -/

/-- What the OS returns when `decrypt_vault_file` opens and reads the file:
raw bytes, or an `OSError`/`PermissionError` carrying a message.  (The file
is re-opened after the walk, so its decrypt-time content is a separate
oracle from the tree.) -/
inductive ReadResult where
  | bytes (bs : List Nat)
  | osError (msg : List Char)

/-- The external `VaultLib.decrypt` capability: ciphertext text in,
plaintext bytes out, or an `AnsibleError` message. -/
def DecryptCap : Type := List Char → Except (List Char) (List Nat)

/-- Result of one `decrypt_vault_file` call: decrypted text, `None` after a
warning, or an uncaught exception propagating out of the function. -/
inductive DecryptOutcome where
  | ok (text : List Char)
  | skipped (warning : List Char)
  | crash
deriving DecidableEq

/-- A path, as Python renders `DirEntry.path`: components joined by `/`. -/
def pathStr (path : List String) : List Char :=
  (String.intercalate "/" path).data

/-- Wrap a message in the `BRED`/`ENDC` color codes. -/
def bredWrap (s : List Char) : List Char := bred ++ s ++ endc

/-- Wrap a message in the `BYEL`/`ENDC` color codes. -/
def byelWrap (s : List Char) : List Char := byel ++ s ++ endc

/-- The warning printed when `vault.decrypt` raises `AnsibleError`. -/
def warnCannotDecrypt (path : List String) (e : List Char) : List Char :=
  byelWrap ("Warning: Cannot decrypt ".data ++ pathStr path ++ ": ".data ++ e)

/-- The warning printed when reading the file raises `OSError`. -/
def warnCannotRead (path : List String) (e : List Char) : List Char :=
  byelWrap ("Warning: Cannot read ".data ++ pathStr path ++ ": ".data ++ e)

/-- `decrypt_vault_file` (src/vaultsearch.py:112-131): open the file as
strict UTF-8 text, pass the text to `vault.decrypt`, decode the resulting
bytes with `errors="ignore"`.  Only `AnsibleError` and
`OSError`/`PermissionError` are caught (warning, then `None`); a
`UnicodeDecodeError` from the strict read is uncaught and propagates. -/
def decrypt_vault_file (path : List String) (raw : ReadResult) (vault : DecryptCap) :
    DecryptOutcome :=
  match raw with
  | .osError e => .skipped (warnCannotRead path e)
  | .bytes bs =>
    match decodeUtf8Strict bs with
    | none => .crash
    | some text =>
      match vault text with
      | .error e => .skipped (warnCannotDecrypt path e)
      | .ok pt => .ok (decodeUtf8Ignore pt)

/-! ## Driver -/

/-- The deduplicated matching lines of a decrypted document: Python's
`{line for line in decrypted_data.splitlines() if rxsearch.search(line)}`.
Set iteration order is implementation-defined; the model fixes one order. -/
def dedupMatchingLines (p : Pat) (text : List Char) : List (List Char) :=
  ((splitlinesChars text).filter (occursIn p)).dedup

/-- The stdout line announcing a matching file: the path wrapped in
`BGRN`/`ENDC`. -/
def pathLine (path : List String) : List Char := bgrn ++ pathStr path ++ endc

/-- One iteration of the driver's per-file loop body
(src/vaultsearch.py:171-185): decrypt, skip on `None`, otherwise search the
whole document and, on a match, print the path line, each deduplicated
matching line two-space-indented and highlighted, and a blank separator.
Returns `(stdout lines, stderr lines, matched)`, or `none` when the
decryptor raises an uncaught exception. -/
def processFile (p : Pat) (vault : DecryptCap) (readAt : List String → ReadResult)
    (path : List String) : Option (List (List Char) × List (List Char) × Bool) :=
  match decrypt_vault_file path (readAt path) vault with
  | .crash => none
  | .skipped w => some ([], [w], false)
  | .ok text =>
    if occursIn p text then
      some (pathLine path ::
              (dedupMatchingLines p text).map (fun l => "  ".data ++ highlight_matches l p)
            ++ [[]],
            [], true)
    else
      some ([], [], false)

/-- Outcome of the whole per-file loop. -/
inductive LoopResult where
  | done (outs errs : List (List Char)) (found : Bool)
  | crashed (outs errs : List (List Char))
deriving DecidableEq

/-- The driver's loop over the walked files, accumulating output and the
`found_any` flag; an uncaught exception aborts the loop, keeping the output
printed so far. -/
def runLoop (p : Pat) (vault : DecryptCap) (readAt : List String → ReadResult) :
    List (List String) → LoopResult
  | [] => .done [] [] false
  | f :: rest =>
    match processFile p vault readAt f with
    | none => .crashed [] []
    | some (o, e, m) =>
      match runLoop p vault readAt rest with
      | .done os es found => .done (o ++ os) (e ++ es) (m || found)
      | .crashed os es => .crashed (o ++ os) (e ++ es)

/-- Everything printed by a run. -/
structure Output where
  outs : List (List Char)
  errs : List (List Char)
deriving DecidableEq

/-- How the process ends: `sys.exit`/normal return with a status, or an
uncaught exception (traceback). -/
inductive RunResult where
  | exited (o : Output) (code : Nat)
  | crashed (o : Output)
deriving DecidableEq

/-- The process exit status: an uncaught exception makes the interpreter
exit with status 1. -/
def exitCode : RunResult → Nat
  | .exited _ c => c
  | .crashed _ => 1

/-- The module docstring, printed to stdout when the pattern argument is
missing. -/
def moduleDoc : List Char :=
  ("Quickly \"grep\" ansible vault files.\n\n"
    ++ "Recursively search current working directory:\n  vaultgrep \"searchterm\"\n\n"
    ++ "Use regex for the search query:\n"
    ++ "  vaultgrep \"searchterm|anotherterm\" /group_vars/all\n\n"
    ++ "Recursively search specific directory:\n"
    ++ "  vaultgrep \"searchterm\" host_vars/myhost\n").data

/-- `parse_arguments` (src/vaultsearch.py:38-67): `args` is `sys.argv[1:]`.
Missing pattern, invalid regex (via the external `compile` capability) and
a nonexistent start path each exit with status 1 after an error line on
stderr.  On success, returns the compiled pattern, the original pattern
string and the start path. -/
def parse_arguments (compile : String → Except (List Char) Pat) (cwd : String)
    (pathEx : String → Bool) (args : List String) :
    Except Output (Pat × String × String) :=
  match args with
  | [] => .error ⟨[[], moduleDoc], [bredWrap "Error: Search term required!".data]⟩
  | term :: rest =>
    match compile term with
    | .error e => .error ⟨[], [bredWrap ("Error: Invalid regex pattern: ".data ++ e)]⟩
    | .ok pat =>
      let sp := match rest with | q :: _ => q | [] => cwd
      if pathEx sp then .ok (pat, term, sp)
      else .error ⟨[], [bredWrap ("Error: Path does not exist: ".data ++ sp.data)]⟩

/-- The final summary line when no file matched. -/
def noMatchLine (term : String) : List Char :=
  ("No matches found for pattern: " ++ term).data

/-- `main` (src/vaultsearch.py:147-188).  Parameters model the external
collaborators: `compile` the regex engine, `cwd` the working directory,
`pathEx` path existence, `setup` vault secret initialization (yielding the
decrypt capability), `fs` the directory tree at the start path, and
`readAt` the decrypt-time view of each file. -/
def mainRun (compile : String → Except (List Char) Pat) (cwd : String)
    (pathEx : String → Bool) (setup : Except (List Char) DecryptCap)
    (fs : List FSEntry) (readAt : List String → ReadResult)
    (args : List String) : RunResult :=
  match parse_arguments compile cwd pathEx args with
  | .error o => .exited o 1
  | .ok (pat, term, _sp) =>
    match setup with
    | .error e =>
      .exited ⟨[], [bredWrap ("Error: Failed to setup vault secrets: ".data ++ e)]⟩ 1
    | .ok vault =>
      match runLoop pat vault readAt (find_vault_files fs) with
      | .crashed os es => .crashed ⟨os, es⟩
      | .done os es found =>
        .exited ⟨os ++ (if found then [] else [noMatchLine term]), es⟩ 0

/-- The INIT-stage outcome of a run: the error output of the first failing
INIT step (missing pattern, invalid regex, nonexistent start path, vault
secret setup failure), or `none` when initialization succeeds and the walk
is reached. -/
def initErrOutput (compile : String → Except (List Char) Pat) (cwd : String)
    (pathEx : String → Bool) (setup : Except (List Char) DecryptCap)
    (args : List String) : Option Output :=
  match parse_arguments compile cwd pathEx args with
  | .error o => some o
  | .ok _ =>
    match setup with
    | .error e =>
      some ⟨[], [bredWrap ("Error: Failed to setup vault secrets: ".data ++ e)]⟩
    | .ok _ => none

/-- The remainder returned by `decodeOne` is strictly shorter than the input. -/
theorem decodeOne_length_lt {bs : List Nat} {c : Char} {r : List Nat}
    (h : decodeOne bs = some (c, r)) : r.length < bs.length := by
  match bs with
  | [] => simp [decodeOne] at h
  | b :: rest =>
    simp only [decodeOne] at h
    split at h
    · simp_all
    · split at h
      · match rest with
        | [] => simp_all
        | b1 :: rest1 =>
          split at h <;> simp_all
          all_goals omega
      · split at h
        · match rest with
          | [] => simp_all
          | [b1] => simp_all
          | b1 :: b2 :: rest2 =>
            split at h <;> simp_all
            all_goals omega
        · split at h
          · match rest with
            | [] => simp_all
            | [b1] => simp_all
            | [b1, b2] => simp_all
            | b1 :: b2 :: b3 :: rest3 =>
              split at h <;> simp_all
              all_goals omega
          · simp_all

/-- A concrete vault file body: the `"$ANSIBLE_VAULT"` marker line followed
by one ASCII byte. -/
def vaultContent : List Nat := markerBytes ++ [10, 65]

/-- A concrete vault file body whose bytes are not valid UTF-8: the marker
line followed by the byte `0xFF`. -/
def badUtfContent : List Nat := markerBytes ++ [10, 0xFF]

/-! ## Fuel elimination: the bounded scanners do not depend on the bound
once it is at least the input length, giving the natural unfolding
equations. -/

theorem subPatAux_irrel (p : Pat) :
    ∀ (f g : Nat) (s : List Char), s.length ≤ f → s.length ≤ g →
      subPatAux p f s = subPatAux p g s := by
  intro f
  induction f with
  | zero =>
    intro g s hf _
    have hs : s = [] := List.length_eq_zero.mp (Nat.le_zero.mp hf)
    subst hs
    cases g <;> simp [subPatAux]
  | succ f ih =>
    intro g s hf hg
    match s, g with
    | [], g => cases g <;> simp [subPatAux]
    | c :: t, 0 => simp at hg
    | c :: t, g + 1 =>
      have hf' : t.length ≤ f := by simpa using hf
      have hg' : t.length ≤ g := by simpa using hg
      have hlen : ((c :: t).drop (patLen p)).length ≤ t.length := by simp [patLen]
      simp only [subPatAux]
      by_cases hpref : isPrefChars (patList p) (c :: t) = true
      · simp only [if_pos hpref]
        rw [ih g _ (hlen.trans hf') (hlen.trans hg')]
      · simp only [if_neg hpref]
        rw [ih g t hf' hg']

theorem subPat_nil (p : Pat) : subPat p [] = [] := rfl

theorem subPat_cons (p : Pat) (c : Char) (t : List Char) :
    subPat p (c :: t) =
      if isPrefChars (patList p) (c :: t) then
        bred ++ patList p ++ endc ++ subPat p ((c :: t).drop (patLen p))
      else
        c :: subPat p t := by
  have hlen : ((c :: t).drop (patLen p)).length ≤ t.length := by simp [patLen]
  show subPatAux p (t.length + 1) (c :: t) = _
  by_cases hpref : isPrefChars (patList p) (c :: t) = true
  · simp only [subPatAux, if_pos hpref]
    rw [subPatAux_irrel p t.length ((c :: t).drop (patLen p)).length _ hlen le_rfl]
    rfl
  · simp only [subPatAux, if_neg hpref]
    rfl

theorem spansFromAux_irrel (p : Pat) :
    ∀ (f g : Nat) (s : List Char) (i : Nat), s.length ≤ f → s.length ≤ g →
      spansFromAux p f s i = spansFromAux p g s i := by
  intro f
  induction f with
  | zero =>
    intro g s i hf _
    have hs : s = [] := List.length_eq_zero.mp (Nat.le_zero.mp hf)
    subst hs
    cases g <;> simp [spansFromAux]
  | succ f ih =>
    intro g s i hf hg
    match s, g with
    | [], g => cases g <;> simp [spansFromAux]
    | c :: t, 0 => simp at hg
    | c :: t, g + 1 =>
      have hf' : t.length ≤ f := by simpa using hf
      have hg' : t.length ≤ g := by simpa using hg
      have hlen : ((c :: t).drop (patLen p)).length ≤ t.length := by simp [patLen]
      simp only [spansFromAux]
      by_cases hpref : isPrefChars (patList p) (c :: t) = true
      · simp only [if_pos hpref]
        rw [ih g _ _ (hlen.trans hf') (hlen.trans hg')]
      · simp only [if_neg hpref]
        rw [ih g t _ hf' hg']

theorem spansFrom_nil (p : Pat) (i : Nat) : spansFrom p [] i = [] := rfl

theorem spansFrom_cons (p : Pat) (c : Char) (t : List Char) (i : Nat) :
    spansFrom p (c :: t) i =
      if isPrefChars (patList p) (c :: t) then
        (i, i + patLen p) :: spansFrom p ((c :: t).drop (patLen p)) (i + patLen p)
      else
        spansFrom p t (i + 1) := by
  have hlen : ((c :: t).drop (patLen p)).length ≤ t.length := by simp [patLen]
  show spansFromAux p (t.length + 1) (c :: t) i = _
  by_cases hpref : isPrefChars (patList p) (c :: t) = true
  · simp only [spansFromAux, if_pos hpref]
    rw [spansFromAux_irrel p t.length ((c :: t).drop (patLen p)).length _ _ hlen le_rfl]
    rfl
  · simp only [spansFromAux, if_neg hpref]
    rfl

theorem stripMarkersAux_irrel :
    ∀ (f g : Nat) (s : List Char), s.length ≤ f → s.length ≤ g →
      stripMarkersAux f s = stripMarkersAux g s := by
  intro f
  induction f with
  | zero =>
    intro g s hf _
    have hs : s = [] := List.length_eq_zero.mp (Nat.le_zero.mp hf)
    subst hs
    cases g <;> simp [stripMarkersAux]
  | succ f ih =>
    intro g s hf hg
    match s, g with
    | [], g => cases g <;> simp [stripMarkersAux]
    | c :: t, 0 => simp at hg
    | c :: t, g + 1 =>
      have hf' : t.length ≤ f := by simpa using hf
      have hg' : t.length ≤ g := by simpa using hg
      have hlenb : ((c :: t).drop bred.length).length ≤ t.length := by simp [bred]
      have hlene : ((c :: t).drop endc.length).length ≤ t.length := by simp [endc]
      simp only [stripMarkersAux]
      by_cases hb : isPrefChars bred (c :: t) = true
      · simp only [if_pos hb]
        rw [ih g _ (hlenb.trans hf') (hlenb.trans hg')]
      · simp only [if_neg hb]
        by_cases he : isPrefChars endc (c :: t) = true
        · simp only [if_pos he]
          rw [ih g _ (hlene.trans hf') (hlene.trans hg')]
        · simp only [if_neg he]
          rw [ih g t hf' hg']

theorem stripMarkers_nil : stripMarkers [] = [] := rfl

theorem stripMarkers_cons (c : Char) (t : List Char) :
    stripMarkers (c :: t) =
      if isPrefChars bred (c :: t) then stripMarkers ((c :: t).drop bred.length)
      else if isPrefChars endc (c :: t) then stripMarkers ((c :: t).drop endc.length)
      else c :: stripMarkers t := by
  have hlenb : ((c :: t).drop bred.length).length ≤ t.length := by simp [bred]
  have hlene : ((c :: t).drop endc.length).length ≤ t.length := by simp [endc]
  show stripMarkersAux (t.length + 1) (c :: t) = _
  by_cases hb : isPrefChars bred (c :: t) = true
  · simp only [stripMarkersAux, if_pos hb]
    rw [stripMarkersAux_irrel t.length ((c :: t).drop bred.length).length _ hlenb le_rfl]
    rfl
  · by_cases he : isPrefChars endc (c :: t) = true
    · simp only [stripMarkersAux, if_neg hb, if_pos he]
      rw [stripMarkersAux_irrel t.length ((c :: t).drop endc.length).length _ hlene le_rfl]
      rfl
    · simp only [stripMarkersAux, if_neg hb, if_neg he]
      rfl

theorem decodeUtf8StrictAux_irrel :
    ∀ (f g : Nat) (bs : List Nat), bs.length ≤ f → bs.length ≤ g →
      decodeUtf8StrictAux f bs = decodeUtf8StrictAux g bs := by
  intro f
  induction f with
  | zero =>
    intro g bs hf _
    have hs : bs = [] := List.length_eq_zero.mp (Nat.le_zero.mp hf)
    subst hs
    cases g <;> simp [decodeUtf8StrictAux]
  | succ f ih =>
    intro g bs hf hg
    match bs, g with
    | [], g => cases g <;> simp [decodeUtf8StrictAux]
    | b :: t, 0 => simp at hg
    | b :: t, g + 1 =>
      have hf' : t.length ≤ f := by simpa using hf
      have hg' : t.length ≤ g := by simpa using hg
      simp only [decodeUtf8StrictAux]
      rcases hd : decodeOne (b :: t) with - | ⟨c, r⟩
      · simp only [hd]
      · simp only [hd]
        have hr : r.length ≤ t.length := by
          have := decodeOne_length_lt hd
          simpa using Nat.lt_succ_iff.mp (by simpa using this)
        rw [ih g r (hr.trans hf') (hr.trans hg')]

theorem decodeUtf8Strict_nil : decodeUtf8Strict [] = some [] := rfl

theorem decodeUtf8Strict_cons_valid {b : Nat} {t : List Nat} {c : Char} {r : List Nat}
    (hd : decodeOne (b :: t) = some (c, r)) :
    decodeUtf8Strict (b :: t) = (decodeUtf8Strict r).map (c :: ·) := by
  have hr : r.length ≤ t.length := by
    have := decodeOne_length_lt hd
    simpa using Nat.lt_succ_iff.mp (by simpa using this)
  show decodeUtf8StrictAux (t.length + 1) (b :: t) = _
  simp only [decodeUtf8StrictAux, hd]
  rw [decodeUtf8StrictAux_irrel t.length r.length r hr le_rfl]
  rfl

theorem decodeUtf8Strict_cons_invalid {b : Nat} {t : List Nat}
    (hd : decodeOne (b :: t) = none) : decodeUtf8Strict (b :: t) = none := by
  show decodeUtf8StrictAux (t.length + 1) (b :: t) = _
  simp only [decodeUtf8StrictAux, hd]

theorem decodeUtf8IgnoreAux_irrel :
    ∀ (f g : Nat) (bs : List Nat), bs.length ≤ f → bs.length ≤ g →
      decodeUtf8IgnoreAux f bs = decodeUtf8IgnoreAux g bs := by
  intro f
  induction f with
  | zero =>
    intro g bs hf _
    have hs : bs = [] := List.length_eq_zero.mp (Nat.le_zero.mp hf)
    subst hs
    cases g <;> simp [decodeUtf8IgnoreAux]
  | succ f ih =>
    intro g bs hf hg
    match bs, g with
    | [], g => cases g <;> simp [decodeUtf8IgnoreAux]
    | b :: t, 0 => simp at hg
    | b :: t, g + 1 =>
      have hf' : t.length ≤ f := by simpa using hf
      have hg' : t.length ≤ g := by simpa using hg
      simp only [decodeUtf8IgnoreAux]
      rcases hd : decodeOne (b :: t) with - | ⟨c, r⟩
      · simp only [hd]
        exact ih g t hf' hg'
      · simp only [hd]
        have hr : r.length ≤ t.length := by
          have := decodeOne_length_lt hd
          simpa using Nat.lt_succ_iff.mp (by simpa using this)
        rw [ih g r (hr.trans hf') (hr.trans hg')]

theorem decodeUtf8Ignore_nil : decodeUtf8Ignore [] = [] := rfl

theorem decodeUtf8Ignore_cons_valid {b : Nat} {t : List Nat} {c : Char} {r : List Nat}
    (hd : decodeOne (b :: t) = some (c, r)) :
    decodeUtf8Ignore (b :: t) = c :: decodeUtf8Ignore r := by
  have hr : r.length ≤ t.length := by
    have := decodeOne_length_lt hd
    simpa using Nat.lt_succ_iff.mp (by simpa using this)
  show decodeUtf8IgnoreAux (t.length + 1) (b :: t) = _
  simp only [decodeUtf8IgnoreAux, hd]
  rw [decodeUtf8IgnoreAux_irrel t.length r.length r hr le_rfl]
  rfl

theorem decodeUtf8Ignore_cons_invalid {b : Nat} {t : List Nat}
    (hd : decodeOne (b :: t) = none) :
    decodeUtf8Ignore (b :: t) = decodeUtf8Ignore t := by
  show decodeUtf8IgnoreAux (t.length + 1) (b :: t) = _
  simp only [decodeUtf8IgnoreAux, hd]
  rfl

theorem decodeUtf8ReplaceSpecAux_irrel :
    ∀ (f g : Nat) (bs : List Nat), bs.length ≤ f → bs.length ≤ g →
      decodeUtf8ReplaceSpecAux f bs = decodeUtf8ReplaceSpecAux g bs := by
  intro f
  induction f with
  | zero =>
    intro g bs hf _
    have hs : bs = [] := List.length_eq_zero.mp (Nat.le_zero.mp hf)
    subst hs
    cases g <;> simp [decodeUtf8ReplaceSpecAux]
  | succ f ih =>
    intro g bs hf hg
    match bs, g with
    | [], g => cases g <;> simp [decodeUtf8ReplaceSpecAux]
    | b :: t, 0 => simp at hg
    | b :: t, g + 1 =>
      have hf' : t.length ≤ f := by simpa using hf
      have hg' : t.length ≤ g := by simpa using hg
      simp only [decodeUtf8ReplaceSpecAux]
      rcases hd : decodeOne (b :: t) with - | ⟨c, r⟩
      · simp only [hd]
        rw [ih g t hf' hg']
      · simp only [hd]
        have hr : r.length ≤ t.length := by
          have := decodeOne_length_lt hd
          simpa using Nat.lt_succ_iff.mp (by simpa using this)
        rw [ih g r (hr.trans hf') (hr.trans hg')]

/-! ## Helper lemmas about the walk -/

theorem resolvesToFile_cons {es : List FSEntry} {e : FSEntry} {p : List String}
    {c : List Nat} (h : resolvesToFile es p c) : resolvesToFile (e :: es) p c := by
  cases h with
  | here hmem => exact .here (List.mem_cons_of_mem _ hmem)
  | deeper hmem hq => exact .deeper (List.mem_cons_of_mem _ hmem) hq

theorem resolvesToFile_ne_nil {es : List FSEntry} {p : List String} {c : List Nat}
    (h : resolvesToFile es p c) : p ≠ [] := by
  cases h <;> simp

/-- C1, main induction: every path the walk yields denotes a nonempty
regular vault file, and has no `".git"` directory component. -/
theorem walk_path_sound (es : List FSEntry) (path : List String)
    (h : path ∈ find_vault_files es) :
    (∃ c, resolvesToFile es path c ∧ 0 < c.length ∧ is_vault_file c = true) ∧
      ∀ d ∈ path.dropLast, d ≠ ".git" := by
  match es with
  | [] => simp [find_vault_files] at h
  | .file n c :: rest =>
    rw [find_vault_files] at h
    rcases List.mem_append.mp h with h1 | h2
    · simp only [findVaultEntry] at h1
      split at h1
      · next hcond =>
        have hpath : path = [n] := by simpa using h1
        subst hpath
        exact ⟨⟨c, .here (by simp), hcond.1, hcond.2⟩, by simp⟩
      · simp at h1
    · obtain ⟨⟨c', hres, hsz, hvault⟩, hnogit⟩ := walk_path_sound rest path h2
      exact ⟨⟨c', resolvesToFile_cons hres, hsz, hvault⟩, hnogit⟩
  | .dir n sub :: rest =>
    rw [find_vault_files] at h
    rcases List.mem_append.mp h with h1 | h2
    · simp only [findVaultEntry] at h1
      split at h1
      · next hgit =>
        rcases List.mem_map.mp h1 with ⟨q, hq, hpath⟩
        subst hpath
        obtain ⟨⟨c, hres, hsz, hvault⟩, hnogit⟩ := walk_path_sound sub q hq
        refine ⟨⟨c, .deeper (by simp) hres, hsz, hvault⟩, ?_⟩
        have hqnil : q ≠ [] := resolvesToFile_ne_nil hres
        match q, hqnil with
        | x :: q', _ =>
          intro d hd
          rw [List.dropLast_cons₂] at hd
          rcases List.mem_cons.mp hd with hdn | hdq
          · subst hdn; exact hgit
          · exact hnogit d hdq
      · simp at h1
    · obtain ⟨⟨c', hres, hsz, hvault⟩, hnogit⟩ := walk_path_sound rest path h2
      exact ⟨⟨c', resolvesToFile_cons hres, hsz, hvault⟩, hnogit⟩
  | .other m :: rest =>
    rw [find_vault_files] at h
    rcases List.mem_append.mp h with h1 | h2
    · simp [findVaultEntry] at h1
    · obtain ⟨⟨c', hres, hsz, hvault⟩, hnogit⟩ := walk_path_sound rest path h2
      exact ⟨⟨c', resolvesToFile_cons hres, hsz, hvault⟩, hnogit⟩
termination_by sizeOf es
decreasing_by all_goals (simp <;> omega)

/-- C1: every path the walk yields (and hence every file passed to the
decryptor) denotes a regular file of the tree with nonzero size whose first
line contains the `"$ANSIBLE_VAULT"` marker, and no yielded path lies under
a directory entry named `".git"`. -/
theorem c1_walk_yields_only_nonempty_vault_files_outside_git
    (es : List FSEntry) (path : List String) (h : path ∈ find_vault_files es) :
    (∃ c, resolvesToFile es path c ∧ 0 < c.length ∧ is_vault_file c = true) ∧
      ∀ d ∈ path.dropLast, d ≠ ".git" :=
  walk_path_sound es path h

/-- C1 witness: a concrete tree with a vault file below a subdirectory. -/
theorem c1_witness :
    ["sub", "a.yml"] ∈
        find_vault_files
          [FSEntry.dir ".git" [FSEntry.file "skip.yml" markerBytes],
           FSEntry.dir "sub" [FSEntry.file "a.yml" (markerBytes ++ [10, 65])]] ∧
      ((∃ c, resolvesToFile
            [FSEntry.dir ".git" [FSEntry.file "skip.yml" markerBytes],
             FSEntry.dir "sub" [FSEntry.file "a.yml" (markerBytes ++ [10, 65])]]
            ["sub", "a.yml"] c ∧ 0 < c.length ∧ is_vault_file c = true) ∧
        ∀ d ∈ ["sub", "a.yml"].dropLast, d ≠ ".git") :=
  ⟨by decide,
   c1_walk_yields_only_nonempty_vault_files_outside_git _ _ (by decide)⟩

/-! ## Helper lemmas about substrings, lines and the loop -/

theorem occursIn_cons (p : Pat) (c : Char) (z : List Char) :
    occursIn p (c :: z) = (isPrefChars (patList p) (c :: z) || occursIn p z) := rfl

theorem isSubChars_cons (q : List Char) (c : Char) (t : List Char) :
    isSubChars q (c :: t) = (((c :: t).take q.length == q) || isSubChars q t) := rfl

theorem isSubChars_nil_pat (s : List Char) : isSubChars [] s = true := by
  cases s <;> simp [isSubChars]

theorem isPrefChars_append {q s : List Char} (t : List Char)
    (h : isPrefChars q s = true) : isPrefChars q (s ++ t) = true := by
  induction q generalizing s with
  | nil => simp [isPrefChars]
  | cons a as ih =>
    match s with
    | [] => simp [isPrefChars] at h
    | b :: bs =>
      simp only [isPrefChars, Bool.and_eq_true] at h ⊢
      exact ⟨h.1, ih h.2⟩

theorem isPrefChars_take {q s : List Char} (h : isPrefChars q s = true) :
    s.take q.length = q := by
  induction q generalizing s with
  | nil => simp
  | cons a as ih =>
    match s with
    | [] => simp [isPrefChars] at h
    | b :: bs =>
      simp only [isPrefChars, Bool.and_eq_true, beq_iff_eq] at h
      simp [List.take, ih h.2, h.1]

theorem occursIn_append_left {p : Pat} {s : List Char} (t : List Char)
    (h : occursIn p s = true) : occursIn p (s ++ t) = true := by
  induction s with
  | nil => simp [occursIn] at h
  | cons c s' ih =>
    rw [occursIn_cons] at h
    rw [List.cons_append, occursIn_cons]
    rcases Bool.or_eq_true_iff.mp h with h1 | h2
    · have h3 := isPrefChars_append t h1
      rw [List.cons_append] at h3
      rw [h3]
      simp
    · rw [ih h2]
      simp

theorem occursIn_append_right {p : Pat} {s : List Char} (t : List Char)
    (h : occursIn p s = true) : occursIn p (t ++ s) = true := by
  induction t with
  | nil => simpa using h
  | cons c t' ih =>
    rw [List.cons_append, occursIn_cons, ih]
    simp

theorem isSubChars_of_append (q a b : List Char) :
    isSubChars q (a ++ (q ++ b)) = true := by
  induction a with
  | nil =>
    match q with
    | [] => simpa using isSubChars_nil_pat b
    | x :: xs =>
      have h1 : ([] : List Char) ++ ((x :: xs) ++ b) = x :: (xs ++ b) := by simp
      rw [h1, isSubChars_cons]
      have h2 : (x :: (xs ++ b)).take (x :: xs).length = x :: xs := by
        have h3 : x :: (xs ++ b) = (x :: xs) ++ b := by simp
        rw [h3, List.take_left]
      rw [h2]
      simp
  | cons c a' ih =>
    have h1 : (c :: a') ++ (q ++ b) = c :: (a' ++ (q ++ b)) := by simp
    rw [h1, isSubChars_cons, ih]
    simp

theorem isSubChars_append_left {q s : List Char} (x : List Char)
    (h : isSubChars q s = true) : isSubChars q (x ++ s) = true := by
  induction x with
  | nil => simpa using h
  | cons c x' ih =>
    have h1 : (c :: x') ++ s = c :: (x' ++ s) := by simp
    rw [h1, isSubChars_cons, ih]
    simp

theorem splitlines_head_prefix :
    ∀ (s l : List Char) (ls : List (List Char)),
      splitlinesChars s = l :: ls → ∃ v, s = l ++ v := by
  intro s
  induction s with
  | nil => intro l ls h; simp [splitlinesChars] at h
  | cons c t ih =>
    intro l ls h
    simp only [splitlinesChars] at h
    split at h
    · next hc =>
      subst hc
      injection h with h1 h2
      subst h1
      exact ⟨'\n' :: t, rfl⟩
    · next hc =>
      rcases hsp : splitlinesChars t with - | ⟨l0, ls0⟩
      · rw [hsp] at h
        injection h with h1 h2
        subst h1
        exact ⟨t, rfl⟩
      · rw [hsp] at h
        injection h with h1 h2
        subst h1
        obtain ⟨v, hv⟩ := ih l0 ls0 hsp
        exact ⟨v, by simp [hv]⟩

theorem mem_splitlines_infix :
    ∀ (s l : List Char), l ∈ splitlinesChars s → ∃ u v, s = u ++ l ++ v := by
  intro s
  induction s with
  | nil => intro l h; simp [splitlinesChars] at h
  | cons c t ih =>
    intro l h
    simp only [splitlinesChars] at h
    split at h
    · next hc =>
      subst hc
      rcases List.mem_cons.mp h with rfl | h2
      · exact ⟨[], '\n' :: t, rfl⟩
      · obtain ⟨u, v, huv⟩ := ih l h2
        exact ⟨'\n' :: u, v, by simp [huv]⟩
    · next hc =>
      rcases hsp : splitlinesChars t with - | ⟨l0, ls0⟩
      · rw [hsp] at h
        rcases List.mem_singleton.mp h with rfl
        exact ⟨[], t, rfl⟩
      · rw [hsp] at h
        rcases List.mem_cons.mp h with rfl | h2
        · obtain ⟨v, hv⟩ := splitlines_head_prefix t l0 ls0 hsp
          exact ⟨[], v, by simp [hv]⟩
        · obtain ⟨u, v, huv⟩ := ih l (hsp ▸ List.mem_cons_of_mem l0 h2)
          exact ⟨c :: u, v, by simp [huv]⟩

theorem occursIn_of_mem_splitlines {p : Pat} {s l : List Char}
    (hl : l ∈ splitlinesChars s) (h : occursIn p l = true) :
    occursIn p s = true := by
  obtain ⟨u, v, rfl⟩ := mem_splitlines_infix s l hl
  rw [List.append_assoc]
  exact occursIn_append_right u (occursIn_append_left v h)

theorem count_one_of_nodup_mem {s : List Char} {l : List (List Char)}
    (hn : l.Nodup) (hm : s ∈ l) : l.count s = 1 := by
  induction l with
  | nil => simp at hm
  | cons a l ih =>
    rcases List.mem_cons.mp hm with rfl | hm2
    · rw [List.count_cons_self,
        List.count_eq_zero.mpr (List.nodup_cons.mp hn).1]
    · have hne : s ≠ a := fun h => (List.nodup_cons.mp hn).1 (h ▸ hm2)
      rw [List.count_cons_of_ne hne, ih (List.nodup_cons.mp hn).2 hm2]

theorem runLoop_found_of_matched {p : Pat} {vault : DecryptCap}
    {readAt : List String → ReadResult} {path : List String}
    {o e : List (List Char)}
    (hpf : processFile p vault readAt path = some (o, e, true)) :
    ∀ (files : List (List String)) (os es : List (List Char)) (found : Bool),
      path ∈ files → runLoop p vault readAt files = .done os es found →
      found = true := by
  intro files
  induction files with
  | nil => intro os es found hmem _; simp at hmem
  | cons f rest ih =>
    intro os es found hmem hrun
    rw [runLoop] at hrun
    rcases hf : processFile p vault readAt f with - | ⟨o2, e2, m2⟩
    · rw [hf] at hrun; simp at hrun
    · rw [hf] at hrun
      rcases hr : runLoop p vault readAt rest with ⟨os2, es2, f2⟩ | ⟨os2, es2⟩
      · rw [hr] at hrun
        simp only [LoopResult.done.injEq] at hrun
        obtain ⟨-, -, hfound⟩ := hrun
        rcases List.mem_cons.mp hmem with rfl | hmem2
        · rw [hpf] at hf
          have hm : m2 = true :=
            (congrArg (fun x => x.2.2) (Option.some.inj hf)).symm
          subst hfound
          simp [hm]
        · have hf2 : f2 = true := ih os2 es2 f2 hmem2 hr
          subst hfound
          simp [hf2]
      · rw [hr] at hrun; simp at hrun

/-! ## C6: deduplication of matching lines -/

/-- C6: if a line text occurs (even at two or more positions) among the
lines of a decrypted document and matches the pattern, it appears exactly
once in the collection the driver iterates to print; that collection is
exactly the set of distinct matching lines. -/
theorem c6_duplicate_matching_lines_printed_once (p : Pat) (text s : List Char)
    (hs : s ∈ splitlinesChars text) (hm : occursIn p s = true) :
    (dedupMatchingLines p text).count s = 1 ∧
      ∀ l, l ∈ dedupMatchingLines p text ↔
        (l ∈ splitlinesChars text ∧ occursIn p l = true) := by
  constructor
  · have hmem : s ∈ dedupMatchingLines p text :=
      List.mem_dedup.mpr (List.mem_filter.mpr ⟨hs, hm⟩)
    exact count_one_of_nodup_mem (List.nodup_dedup _) hmem
  · intro l
    constructor
    · intro h
      have := List.mem_filter.mp (List.mem_dedup.mp h)
      exact ⟨this.1, this.2⟩
    · intro h
      exact List.mem_dedup.mpr (List.mem_filter.mpr ⟨h.1, h.2⟩)

/-- C6 witness: the document `"pw: a\nx\npw: a"` has the matching line
`"pw: a"` twice; it is counted once. -/
theorem c6_witness :
    ("pw: a".data ∈ splitlinesChars "pw: a\nx\npw: a".data ∧
        occursIn ('p', "w".data) "pw: a".data = true) ∧
      ((dedupMatchingLines ('p', "w".data) "pw: a\nx\npw: a".data).count "pw: a".data = 1 ∧
        ∀ l, l ∈ dedupMatchingLines ('p', "w".data) "pw: a\nx\npw: a".data ↔
          (l ∈ splitlinesChars "pw: a\nx\npw: a".data ∧
            occursIn ('p', "w".data) l = true)) :=
  ⟨⟨by decide, by decide⟩,
   c6_duplicate_matching_lines_printed_once ('p', "w".data) "pw: a\nx\npw: a".data
     "pw: a".data (by decide) (by decide)⟩

/-! ## C9: whole-document match with no matching line -/

/-- C9: when the pattern matches the decrypted document as a whole but no
individual line, the driver still prints the file path and the blank
separator (and nothing else) for that file, marks it as matched, and — the
found-any flag being set — the final no-matches message is suppressed. -/
theorem c9_document_match_without_line_match (p : Pat) (vault : DecryptCap)
    (readAt : List String → ReadResult) (path : List String) (text : List Char)
    (hok : decrypt_vault_file path (readAt path) vault = .ok text)
    (hdoc : occursIn p text = true)
    (hlines : ∀ l ∈ splitlinesChars text, occursIn p l = false) :
    processFile p vault readAt path = some ([pathLine path, []], [], true) ∧
      (∀ (files : List (List String)) (os es : List (List Char)) (found : Bool),
        path ∈ files → runLoop p vault readAt files = .done os es found →
        found = true) ∧
      (∀ (compile : String → Except (List Char) Pat) (cwd : String)
          (pathEx : String → Bool) (args : List String) (term sp : String)
          (fs : List FSEntry) (os es : List (List Char)) (found : Bool),
        parse_arguments compile cwd pathEx args = .ok (p, term, sp) →
        path ∈ find_vault_files fs →
        runLoop p vault readAt (find_vault_files fs) = .done os es found →
        mainRun compile cwd pathEx (.ok vault) fs readAt args = .exited ⟨os, es⟩ 0) := by
  have hfilter : (splitlinesChars text).filter (occursIn p) = [] :=
    List.filter_eq_nil_iff.mpr (fun l hl => by simp [hlines l hl])
  have hdedup : dedupMatchingLines p text = [] := by
    simp [dedupMatchingLines, hfilter]
  have hpf : processFile p vault readAt path = some ([pathLine path, []], [], true) := by
    simp [processFile, hok, hdoc, hdedup]
  refine ⟨hpf, runLoop_found_of_matched hpf, ?_⟩
  intro compile cwd pathEx args term sp fs os es found hparse hmem hloop
  have hfound : found = true := runLoop_found_of_matched hpf _ os es found hmem hloop
  subst hfound
  simp [mainRun, hparse, hloop]

/-- C9 witness: the pattern `"a\nb"` matches `"xa\nby"` only across the
line break. -/
theorem c9_witness :
    (decrypt_vault_file ["v.yml"] (.bytes vaultContent)
          (fun _ => .ok ("xa\nby".data.map Char.toNat))
        = .ok "xa\nby".data ∧
      occursIn ('a', "\nb".data) "xa\nby".data = true ∧
      ∀ l ∈ splitlinesChars "xa\nby".data, occursIn ('a', "\nb".data) l = false) ∧
      processFile ('a', "\nb".data) (fun _ => .ok ("xa\nby".data.map Char.toNat))
          (fun _ => .bytes vaultContent) ["v.yml"]
        = some ([pathLine ["v.yml"], []], [], true) :=
  ⟨⟨by decide, by decide, by decide⟩,
   (c9_document_match_without_line_match ('a', "\nb".data)
      (fun _ => .ok ("xa\nby".data.map Char.toNat)) (fun _ => .bytes vaultContent)
      ["v.yml"] "xa\nby".data (by decide) (by decide) (by decide)).1⟩

/-! ## C2: round-trip reporting -/

/-- C2 counterexample: the pattern `"a\nb"` occurs in the decrypted
plaintext `"xa\nby"` (only across a line break); the driver reports the
file, but its output block contains no highlighted line — no printed line
contains an occurrence of the pattern, contradicting the claim as stated. -/
theorem c2_counterexample :
    occursIn ('a', "\nb".data) (decodeUtf8Ignore ("xa\nby".data.map Char.toNat)) = true ∧
      processFile ('a', "\nb".data)
          (fun _ => .ok ("xa\nby".data.map Char.toNat))
          (fun _ => .bytes vaultContent) ["v.yml"]
        = some ([pathLine ["v.yml"], []], [], true) ∧
      ∀ l ∈ [pathLine ["v.yml"], ([] : List Char)],
        isSubChars (patList ('a', "\nb".data)) l = false :=
  ⟨by decide, by decide, by decide⟩

theorem subPat_decomp {p : Pat} {l : List Char} (h : occursIn p l = true) :
    ∃ u v, subPat p l = u ++ (bred ++ (patList p ++ v)) := by
  induction l with
  | nil => simp [occursIn] at h
  | cons c t ih =>
    rw [subPat_cons]
    by_cases hpref : isPrefChars (patList p) (c :: t) = true
    · exact ⟨[], endc ++ subPat p ((c :: t).drop (patLen p)), by simp [if_pos hpref]⟩
    · rw [occursIn_cons] at h
      have h2 : occursIn p t = true := by
        rcases Bool.or_eq_true_iff.mp h with h1 | h2
        · exact absurd h1 hpref
        · exact h2
      obtain ⟨u, v, huv⟩ := ih h2
      exact ⟨c :: u, v, by simp [if_neg hpref, huv]⟩

theorem isSubChars_lstrip_append {q : List Char} :
    ∀ (x y : List Char), (∃ ch ∈ x, ch.isWhitespace = false) →
      isSubChars q (lstripChars (x ++ (q ++ y))) = true := by
  intro x
  induction x with
  | nil =>
    rintro y ⟨ch, hch, -⟩
    simp at hch
  | cons a x' ih =>
    rintro y ⟨ch, hch, hws⟩
    rw [List.cons_append]
    simp only [lstripChars]
    by_cases ha : a.isWhitespace
    · rw [if_pos ha]
      apply ih
      rcases List.mem_cons.mp hch with rfl | hmem
      · rw [ha] at hws; cases hws
      · exact ⟨ch, hmem, hws⟩
    · rw [if_neg ha]
      have h4 := isSubChars_of_append q (a :: x') y
      simpa using h4

theorem isSubChars_patList_highlight {p : Pat} {l : List Char}
    (h : occursIn p l = true) :
    isSubChars (patList p) (highlight_matches l p) = true := by
  obtain ⟨u, v, huv⟩ := subPat_decomp h
  rw [highlight_matches, huv]
  have hsplit : u ++ (bred ++ (patList p ++ v)) = (u ++ bred) ++ (patList p ++ v) := by
    simp
  rw [hsplit]
  apply isSubChars_lstrip_append
  exact ⟨'m', by simp [bred], by decide⟩

/-- C2 (amended): for every vault file whose decryption succeeds with known
plaintext and every pattern that matches some individual line of that
plaintext, the driver reports the file (the path line heads its output
block) and prints at least one highlighted line containing an occurrence of
the pattern. -/
theorem c2_line_match_reported_and_highlighted (p : Pat) (vault : DecryptCap)
    (readAt : List String → ReadResult) (path : List String)
    (text line : List Char)
    (hok : decrypt_vault_file path (readAt path) vault = .ok text)
    (hline : line ∈ splitlinesChars text) (hm : occursIn p line = true) :
    processFile p vault readAt path
      = some (pathLine path ::
          (dedupMatchingLines p text).map (fun l => "  ".data ++ highlight_matches l p)
          ++ [[]], [], true) ∧
      ∃ hl ∈ (dedupMatchingLines p text).map (fun l => "  ".data ++ highlight_matches l p),
        isSubChars (patList p) hl = true := by
  have htext : occursIn p text = true := occursIn_of_mem_splitlines hline hm
  have hmem : line ∈ dedupMatchingLines p text :=
    List.mem_dedup.mpr (List.mem_filter.mpr ⟨hline, hm⟩)
  refine ⟨by simp [processFile, hok, htext], ?_⟩
  refine ⟨"  ".data ++ highlight_matches line p, List.mem_map.mpr ⟨line, hmem, rfl⟩, ?_⟩
  exact isSubChars_append_left _ (isSubChars_patList_highlight hm)

/-- C2 witness: plaintext `"x\npw: a"`, pattern `"pw"`. -/
theorem c2_witness :
    (decrypt_vault_file ["v.yml"] (.bytes vaultContent)
          (fun _ => .ok ("x\npw: a".data.map Char.toNat))
        = .ok "x\npw: a".data ∧
      "pw: a".data ∈ splitlinesChars "x\npw: a".data ∧
      occursIn ('p', "w".data) "pw: a".data = true) ∧
      (processFile ('p', "w".data) (fun _ => .ok ("x\npw: a".data.map Char.toNat))
          (fun _ => .bytes vaultContent) ["v.yml"]
        = some (pathLine ["v.yml"] ::
            (dedupMatchingLines ('p', "w".data) "x\npw: a".data).map
              (fun l => "  ".data ++ highlight_matches l ('p', "w".data))
            ++ [[]], [], true) ∧
        ∃ hl ∈ (dedupMatchingLines ('p', "w".data) "x\npw: a".data).map
            (fun l => "  ".data ++ highlight_matches l ('p', "w".data)),
          isSubChars (patList ('p', "w".data)) hl = true) :=
  ⟨⟨by decide, by decide, by decide⟩,
   c2_line_match_reported_and_highlighted ('p', "w".data)
     (fun _ => .ok ("x\npw: a".data.map Char.toNat)) (fun _ => .bytes vaultContent)
     ["v.yml"] "x\npw: a".data "pw: a".data (by decide) (by decide) (by decide)⟩

/-! ## C4 and C10: per-file error handling -/

theorem isSubChars_middle (q a b : List Char) : isSubChars q (a ++ q ++ b) = true := by
  have h := isSubChars_of_append q a b
  rwa [← List.append_assoc] at h

/-- C4: when reading the candidate file raises `OSError`/`PermissionError`
or decryption raises `AnsibleError`, the decryptor returns the null result
after exactly one warning naming the file and the error, the driver skips
the file without marking it as a match, and the loop continues over the
remaining files — the failure is never fatal. -/
theorem c4_per_file_failures_skipped (p : Pat) (vault : DecryptCap)
    (readAt : List String → ReadResult) (path : List String)
    (h : (∃ e, readAt path = .osError e) ∨
         (∃ bs text e, readAt path = .bytes bs ∧ decodeUtf8Strict bs = some text ∧
            vault text = .error e)) :
    ∃ e w, (w = warnCannotRead path e ∨ w = warnCannotDecrypt path e) ∧
      decrypt_vault_file path (readAt path) vault = .skipped w ∧
      isSubChars (pathStr path) w = true ∧
      isSubChars e w = true ∧
      processFile p vault readAt path = some ([], [w], false) ∧
      ∀ (rest : List (List String)),
        runLoop p vault readAt (path :: rest)
          = (match runLoop p vault readAt rest with
             | .done os es found => .done os (w :: es) found
             | .crashed os es => .crashed os (w :: es)) := by
  rcases h with ⟨e, hre⟩ | ⟨bs, text, e, hre, hdec, hv⟩
  · refine ⟨e, warnCannotRead path e, Or.inl rfl, ?_, ?_, ?_, ?_, ?_⟩
    · simp [decrypt_vault_file, hre]
    · have hw : warnCannotRead path e
          = (byel ++ "Warning: Cannot read ".data) ++ pathStr path
            ++ (": ".data ++ e ++ endc) := by
        simp [warnCannotRead, byelWrap]
      rw [hw]
      exact isSubChars_middle _ _ _
    · have hw : warnCannotRead path e
          = (byel ++ "Warning: Cannot read ".data ++ pathStr path ++ ": ".data)
            ++ e ++ endc := by
        simp [warnCannotRead, byelWrap]
      rw [hw]
      exact isSubChars_middle _ _ _
    · simp [processFile, decrypt_vault_file, hre]
    · intro rest
      have hpf : processFile p vault readAt path
          = some ([], [warnCannotRead path e], false) := by
        simp [processFile, decrypt_vault_file, hre]
      rw [runLoop, hpf]
      rcases runLoop p vault readAt rest with ⟨os, es, found⟩ | ⟨os, es⟩ <;> simp
  · refine ⟨e, warnCannotDecrypt path e, Or.inr rfl, ?_, ?_, ?_, ?_, ?_⟩
    · simp [decrypt_vault_file, hre, hdec, hv]
    · have hw : warnCannotDecrypt path e
          = (byel ++ "Warning: Cannot decrypt ".data) ++ pathStr path
            ++ (": ".data ++ e ++ endc) := by
        simp [warnCannotDecrypt, byelWrap]
      rw [hw]
      exact isSubChars_middle _ _ _
    · have hw : warnCannotDecrypt path e
          = (byel ++ "Warning: Cannot decrypt ".data ++ pathStr path ++ ": ".data)
            ++ e ++ endc := by
        simp [warnCannotDecrypt, byelWrap]
      rw [hw]
      exact isSubChars_middle _ _ _
    · simp [processFile, decrypt_vault_file, hre, hdec, hv]
    · intro rest
      have hpf : processFile p vault readAt path
          = some ([], [warnCannotDecrypt path e], false) := by
        simp [processFile, decrypt_vault_file, hre, hdec, hv]
      rw [runLoop, hpf]
      rcases runLoop p vault readAt rest with ⟨os, es, found⟩ | ⟨os, es⟩ <;> simp

/-- C4 witness: a file whose decrypt-time read raises a permission error. -/
theorem c4_witness :
    ((fun (_ : List String) => ReadResult.osError "denied".data) ["f.yml"]
        = ReadResult.osError "denied".data) ∧
      (∃ e w, (w = warnCannotRead ["f.yml"] e ∨ w = warnCannotDecrypt ["f.yml"] e) ∧
        decrypt_vault_file ["f.yml"]
            ((fun (_ : List String) => ReadResult.osError "denied".data) ["f.yml"])
            (fun _ => .ok []) = .skipped w ∧
        isSubChars (pathStr ["f.yml"]) w = true ∧
        isSubChars e w = true ∧
        processFile ('a', []) (fun _ => .ok [])
            (fun (_ : List String) => ReadResult.osError "denied".data) ["f.yml"]
          = some ([], [w], false) ∧
        ∀ (rest : List (List String)),
          runLoop ('a', []) (fun _ => .ok [])
              (fun (_ : List String) => ReadResult.osError "denied".data)
              (["f.yml"] :: rest)
            = (match runLoop ('a', []) (fun _ => .ok [])
                  (fun (_ : List String) => ReadResult.osError "denied".data) rest with
               | .done os es found => .done os (w :: es) found
               | .crashed os es => .crashed os (w :: es))) :=
  ⟨rfl,
   c4_per_file_failures_skipped ('a', []) (fun _ => .ok [])
     (fun (_ : List String) => ReadResult.osError "denied".data) ["f.yml"]
     (Or.inl ⟨"denied".data, rfl⟩)⟩

/-- C10: there is a candidate file that terminates the whole run: this
vault-marked file's raw bytes are not valid UTF-8, the walk yields it, the
strict text-mode read in the decryptor raises a `UnicodeDecodeError` that no
handler catches, and the run aborts (exit status 1 from the uncaught
exception) instead of logging a warning and skipping the file. -/
theorem c10_invalid_utf8_file_crashes_run :
    find_vault_files [FSEntry.file "bad.yml" badUtfContent] = [["bad.yml"]] ∧
      decodeUtf8Strict badUtfContent = none ∧
      decrypt_vault_file ["bad.yml"] (.bytes badUtfContent) (fun _ => .ok []) = .crash ∧
      mainRun (fun _ => .ok ('A', [])) "." (fun _ => true) (.ok (fun _ => .ok []))
          [FSEntry.file "bad.yml" badUtfContent] (fun _ => .bytes badUtfContent) ["A"]
        = .crashed ⟨[], []⟩ ∧
      exitCode
          (mainRun (fun _ => .ok ('A', [])) "." (fun _ => true) (.ok (fun _ => .ok []))
            [FSEntry.file "bad.yml" badUtfContent] (fun _ => .bytes badUtfContent) ["A"])
        = 1 :=
  ⟨by decide, by decide, by decide, by decide, by decide⟩

/-! ## C3: lenient decoding of the decryption output -/

/-- C3 counterexample: on decryption output `[0xFF, 0x61]` the decryptor
returns `"a"` — the invalid byte is dropped — whereas replacing it with a
replacement character, as the claim states, would give `"\uFFFD" ++ "a"`. -/
theorem c3_counterexample :
    decrypt_vault_file ["v.yml"] (.bytes vaultContent) (fun _ => .ok [0xFF, 0x61])
        = .ok ['a'] ∧
      decodeUtf8ReplaceSpec [0xFF, 0x61] = [Char.ofNat 0xFFFD, 'a'] ∧
      (['a'] : List Char) ≠ [Char.ofNat 0xFFFD, 'a'] :=
  ⟨by decide, by decide, by decide⟩

/-- A successful `decodeOne` consumes a chunk whose decoding does not depend
on what follows it. -/
theorem decodeOne_chunk :
    ∀ {bs : List Nat} {c : Char} {r : List Nat}, decodeOne bs = some (c, r) →
      ∃ chunk, bs = chunk ++ r ∧ ∀ z, decodeOne (chunk ++ z) = some (c, z) := by
  intro bs c r h
  match bs with
  | [] => simp [decodeOne] at h
  | [b] =>
    simp only [decodeOne] at h
    split at h
    · next h1 =>
      injection h with h2
      injection h2 with hc hr
      subst hc; subst hr
      exact ⟨[b], by simp, fun z => by simp [decodeOne, h1]⟩
    · repeat' (split at h)
      all_goals simp at h
  | [b, b1] =>
    simp only [decodeOne] at h
    split at h
    · next h1 =>
      injection h with h2
      injection h2 with hc hr
      subst hc; subst hr
      exact ⟨[b], by simp, fun z => by simp [decodeOne, h1]⟩
    · next h1 =>
      split at h
      · next h2 =>
        split at h
        · next h3 =>
          injection h with h4
          injection h4 with hc hr
          subst hc; subst hr
          exact ⟨[b, b1], by simp, fun z => by simp [decodeOne, h1, h2, h3]⟩
        · simp at h
      · repeat' (split at h)
        all_goals simp at h
  | [b, b1, b2] =>
    simp only [decodeOne] at h
    split at h
    · next h1 =>
      injection h with h2
      injection h2 with hc hr
      subst hc; subst hr
      exact ⟨[b], by simp, fun z => by simp [decodeOne, h1]⟩
    · next h1 =>
      split at h
      · next h2 =>
        split at h
        · next h3 =>
          injection h with h4
          injection h4 with hc hr
          subst hc; subst hr
          exact ⟨[b, b1], by simp, fun z => by simp [decodeOne, h1, h2, h3]⟩
        · simp at h
      · next h2 =>
        split at h
        · next h3 =>
          split at h
          · next h4 =>
            injection h with h5
            injection h5 with hc hr
            subst hc; subst hr
            exact ⟨[b, b1, b2], by simp,
              fun z => by simp [decodeOne, h1, h2, h3, h4]⟩
          · simp at h
        · repeat' (split at h)
          all_goals simp at h
  | b :: b1 :: b2 :: b3 :: rest =>
    simp only [decodeOne] at h
    split at h
    · next h1 =>
      injection h with h2
      injection h2 with hc hr
      subst hc; subst hr
      exact ⟨[b], by simp, fun z => by simp [decodeOne, h1]⟩
    · next h1 =>
      split at h
      · next h2 =>
        split at h
        · next h3 =>
          injection h with h4
          injection h4 with hc hr
          subst hc; subst hr
          exact ⟨[b, b1], by simp, fun z => by simp [decodeOne, h1, h2, h3]⟩
        · simp at h
      · next h2 =>
        split at h
        · next h3 =>
          split at h
          · next h4 =>
            injection h with h5
            injection h5 with hc hr
            subst hc; subst hr
            exact ⟨[b, b1, b2], by simp,
              fun z => by simp [decodeOne, h1, h2, h3, h4]⟩
          · simp at h
        · next h3 =>
          split at h
          · next h4 =>
            split at h
            · next h5 =>
              injection h with h6
              injection h6 with hc hr
              subst hc; subst hr
              exact ⟨[b, b1, b2, b3], by simp,
                fun z => by simp [decodeOne, h1, h2, h3, h4, h5]⟩
            · simp at h
          · simp at h

/-- The `errors="ignore"` decoding of any byte sequence is the strict
decoding of one of its subsequences: invalid bytes are dropped, and the
lenient decode never fails. -/
theorem ignore_strict_sublist (bs : List Nat) :
    ∃ sub, List.Sublist sub bs ∧ decodeUtf8Strict sub = some (decodeUtf8Ignore bs) := by
  match bs with
  | [] => exact ⟨[], List.Sublist.refl [], by decide⟩
  | b :: t =>
    rcases hd : decodeOne (b :: t) with - | ⟨c, r⟩
    · have hig := decodeUtf8Ignore_cons_invalid hd
      obtain ⟨sub, hsub, hstrict⟩ := ignore_strict_sublist t
      exact ⟨sub, hsub.cons b, by rw [hig]; exact hstrict⟩
    · have hig := decodeUtf8Ignore_cons_valid hd
      obtain ⟨chunk, hchunk, hre⟩ := decodeOne_chunk hd
      have hrlen := decodeOne_length_lt hd
      obtain ⟨sub, hsub, hstrict⟩ := ignore_strict_sublist r
      refine ⟨chunk ++ sub, ?_, ?_⟩
      · rw [hchunk]
        exact List.Sublist.append_left hsub chunk
      · have hne : chunk ≠ [] := by
          rintro rfl
          rw [List.nil_append] at hchunk
          rw [hchunk] at hrlen
          exact absurd hrlen (lt_irrefl _)
        match chunk, hne with
        | x :: xs, _ =>
          have hdx : decodeOne (x :: (xs ++ sub)) = some (c, sub) := by
            have := hre sub
            rwa [List.cons_append] at this
          rw [List.cons_append, decodeUtf8Strict_cons_valid hdx, hstrict, hig]
          rfl
termination_by bs.length
decreasing_by
  · simp
  · exact hrlen

/-- C3 (amended): the decryptor decodes the decryption output leniently
with `errors="ignore"`: it never raises, each invalid byte sequence is
dropped rather than replaced, and the decryptor returns the resulting text
— equivalently, the returned text is the strict decoding of a subsequence
of the decryption output. -/
theorem c3_decrypt_output_decoded_ignoring_invalid (path : List String)
    (vault : DecryptCap) (raw : List Nat) (text : List Char) (bs : List Nat)
    (hraw : decodeUtf8Strict raw = some text) (hv : vault text = .ok bs) :
    decrypt_vault_file path (.bytes raw) vault = .ok (decodeUtf8Ignore bs) ∧
      ∃ sub, List.Sublist sub bs ∧
        decodeUtf8Strict sub = some (decodeUtf8Ignore bs) := by
  constructor
  · simp [decrypt_vault_file, hraw, hv]
  · exact ignore_strict_sublist bs

/-- C3 witness: decryption output `[0xFF, 0x61]` on a concrete vault file. -/
theorem c3_witness :
    (decodeUtf8Strict vaultContent = some "$ANSIBLE_VAULT\nA".data ∧
        (fun (_ : List Char) => Except.ok (ε := List Char) [0xFF, 0x61])
            "$ANSIBLE_VAULT\nA".data = .ok [0xFF, 0x61]) ∧
      (decrypt_vault_file ["v.yml"] (.bytes vaultContent)
            (fun _ => .ok [0xFF, 0x61])
          = .ok (decodeUtf8Ignore [0xFF, 0x61]) ∧
        ∃ sub, List.Sublist sub [0xFF, 0x61] ∧
          decodeUtf8Strict sub = some (decodeUtf8Ignore [0xFF, 0x61])) :=
  ⟨⟨by decide, rfl⟩,
   c3_decrypt_output_decoded_ignoring_invalid ["v.yml"]
     (fun _ => .ok [0xFF, 0x61]) vaultContent "$ANSIBLE_VAULT\nA".data
     [0xFF, 0x61] (by decide) rfl⟩

/-! ## C5: exit codes -/

theorem parse_error_errs {compile : String → Except (List Char) Pat} {cwd : String}
    {pathEx : String → Bool} {args : List String} {o : Output}
    (h : parse_arguments compile cwd pathEx args = .error o) : o.errs ≠ [] := by
  match args with
  | [] =>
    simp only [parse_arguments] at h
    injection h with h1
    subst h1
    simp
  | term :: rest =>
    simp only [parse_arguments] at h
    rcases hc : compile term with e | pat
    · simp only [hc] at h
      injection h with h1
      subst h1
      simp
    · simp only [hc] at h
      split at h
      · simp at h
      · injection h with h1
        subst h1
        simp

/-- C5 counterexample: a run with no INIT-stage error (argument present,
pattern compiles, path exists, vault secrets set up) that reaches the walk
and still exits with a non-zero status, because a yielded file's invalid
UTF-8 bytes raise an uncaught decoding error mid-walk; so "non-zero exactly
when an INIT-stage error occurs" fails. -/
theorem c5_counterexample :
    initErrOutput (fun _ => .ok ('A', [])) "." (fun _ => true)
        (.ok (fun _ => .ok [])) ["A"] = none ∧
      exitCode
          (mainRun (fun _ => .ok ('A', [])) "." (fun _ => true)
            (.ok (fun _ => .ok [])) [FSEntry.file "bad.yml" badUtfContent]
            (fun _ => .bytes badUtfContent) ["A"])
        = 1 :=
  ⟨by decide, by decide⟩

/-- C5 (amended): the process exits with status 0 on any run that reaches
the walk and completes it (even with zero matches); on each INIT-stage
error it exits with status 1 after printing an error line to the error
stream and without consulting the tree or the files (no walk); the only
other non-zero exits are runs aborted by an uncaught per-file decoding
error. -/
theorem c5_exit_zero_iff_init_ok (compile : String → Except (List Char) Pat)
    (cwd : String) (pathEx : String → Bool) (setup : Except (List Char) DecryptCap)
    (fs : List FSEntry) (readAt : List String → ReadResult) (args : List String) :
    (∀ o, initErrOutput compile cwd pathEx setup args = some o →
      mainRun compile cwd pathEx setup fs readAt args = .exited o 1 ∧
        o.errs ≠ [] ∧
        ∀ (fs2 : List FSEntry) (readAt2 : List String → ReadResult),
          mainRun compile cwd pathEx setup fs readAt args
            = mainRun compile cwd pathEx setup fs2 readAt2 args) ∧
    (initErrOutput compile cwd pathEx setup args = none →
      ∀ o c, mainRun compile cwd pathEx setup fs readAt args = .exited o c →
        c = 0) := by
  constructor
  · intro o ho
    unfold initErrOutput at ho
    rcases hp : parse_arguments compile cwd pathEx args with o2 | trip
    · rw [hp] at ho
      injection ho with h1
      subst h1
      refine ⟨by simp [mainRun, hp], parse_error_errs hp, ?_⟩
      intro fs2 readAt2
      simp [mainRun, hp]
    · rw [hp] at ho
      rcases hs : setup with e | vault
      · rw [hs] at ho
        injection ho with h1
        subst h1
        rcases trip with ⟨pat, term, sp⟩
        refine ⟨by simp [mainRun, hp, hs], by simp, ?_⟩
        intro fs2 readAt2
        simp [mainRun, hp, hs]
      · rw [hs] at ho
        simp at ho
  · intro hnone o c hrun
    unfold initErrOutput at hnone
    rcases hp : parse_arguments compile cwd pathEx args with o2 | ⟨pat, term, sp⟩
    · rw [hp] at hnone
      simp at hnone
    · rw [hp] at hnone
      rcases hs : setup with e | vault
      · rw [hs] at hnone
        simp at hnone
      · simp only [mainRun, hp, hs] at hrun
        rcases hl : runLoop pat vault readAt (find_vault_files fs)
          with ⟨os, es, found⟩ | ⟨os, es⟩
        · rw [hl] at hrun
          injection hrun with h1 h2
          exact h2.symm
        · rw [hl] at hrun
          simp at hrun

set_option maxRecDepth 8000 in
/-- C5 witness: an INIT-stage failure (missing pattern argument) exits 1
with an error line and without any walk; a completed run with zero matches
exits 0. -/
theorem c5_witness :
    (initErrOutput (fun _ => .ok ('A', [])) "." (fun _ => true)
          (.ok (fun _ => .ok [])) []
        = some ⟨[[], moduleDoc], [bredWrap "Error: Search term required!".data]⟩ ∧
      (mainRun (fun _ => .ok ('A', [])) "." (fun _ => true) (.ok (fun _ => .ok []))
            [] (fun _ => .bytes []) []
          = .exited ⟨[[], moduleDoc], [bredWrap "Error: Search term required!".data]⟩ 1 ∧
        (Output.errs ⟨[[], moduleDoc], [bredWrap "Error: Search term required!".data]⟩ ≠ []) ∧
        ∀ (fs2 : List FSEntry) (readAt2 : List String → ReadResult),
          mainRun (fun _ => .ok ('A', [])) "." (fun _ => true) (.ok (fun _ => .ok []))
              [] (fun _ => .bytes []) []
            = mainRun (fun _ => .ok ('A', [])) "." (fun _ => true) (.ok (fun _ => .ok []))
                fs2 readAt2 [])) ∧
    (initErrOutput (fun _ => .ok ('A', [])) "." (fun _ => true)
          (.ok (fun _ => .ok [])) ["A"] = none ∧
      mainRun (fun _ => .ok ('A', [])) "." (fun _ => true) (.ok (fun _ => .ok []))
          [] (fun _ => .bytes []) ["A"]
        = .exited ⟨[noMatchLine "A"], []⟩ 0 ∧
      ((0 : Nat) = 0)) :=
  ⟨⟨by decide,
    (c5_exit_zero_iff_init_ok (fun _ => .ok ('A', [])) "." (fun _ => true)
        (.ok (fun _ => .ok [])) [] (fun _ => .bytes []) []).1
      ⟨[[], moduleDoc], [bredWrap "Error: Search term required!".data]⟩ (by decide)⟩,
   ⟨by decide, by decide,
    (c5_exit_zero_iff_init_ok (fun _ => .ok ('A', [])) "." (fun _ => true)
        (.ok (fun _ => .ok [])) [] (fun _ => .bytes []) ["A"]).2
      (by decide) ⟨[noMatchLine "A"], []⟩ 0 (by decide)⟩⟩

/-! ## C7: the highlighter wraps exactly the match spans -/

theorem spansFrom_start_ge (p : Pat) :
    ∀ (s : List Char) (i : Nat) (sp : Nat × Nat), sp ∈ spansFrom p s i →
      i ≤ sp.1 := by
  intro s i sp hmem
  match s with
  | [] =>
    rw [spansFrom_nil] at hmem
    simp at hmem
  | c :: t =>
    rw [spansFrom_cons] at hmem
    by_cases hpref : isPrefChars (patList p) (c :: t) = true
    · rw [if_pos hpref] at hmem
      rcases List.mem_cons.mp hmem with rfl | h2
      · simp
      · have := spansFrom_start_ge p ((c :: t).drop (patLen p)) (i + patLen p) sp h2
        omega
    · rw [if_neg hpref] at hmem
      have := spansFrom_start_ge p t (i + 1) sp hmem
      omega
termination_by s => s.length
decreasing_by
  · simp [patLen]
    omega
  · simp

theorem spliceAux_cons_shift (s0 : List Char) (c : Char) (t : List Char) (i : Nat)
    (hdrop : s0.drop i = c :: t) (spans : List (Nat × Nat))
    (h : ∀ sp ∈ spans, i + 1 ≤ sp.1) :
    spliceAux s0 i spans = c :: spliceAux s0 (i + 1) spans := by
  have hdrop1 : s0.drop (i + 1) = t := by
    rw [← List.drop_drop, hdrop]
    rfl
  match spans with
  | [] =>
    simp only [spliceAux]
    rw [hdrop, hdrop1]
  | (a, b) :: rest =>
    have ha : i + 1 ≤ a := h (a, b) (List.mem_cons_self _ _)
    simp only [spliceAux]
    have hext : extractRange s0 i a = c :: extractRange s0 (i + 1) a := by
      rw [extractRange, extractRange, hdrop, hdrop1]
      have h1 : a - i = (a - (i + 1)) + 1 := by omega
      rw [h1]
      rfl
    rw [hext]
    simp

theorem spliceAux_spansFrom (p : Pat) (s0 : List Char) :
    ∀ (s : List Char) (i : Nat), s0.drop i = s →
      spliceAux s0 i (spansFrom p s i) = subPat p s := by
  intro s i hdrop
  match s with
  | [] =>
    rw [spansFrom_nil, subPat_nil]
    simpa [spliceAux] using hdrop
  | c :: t =>
    rw [spansFrom_cons, subPat_cons]
    by_cases hpref : isPrefChars (patList p) (c :: t) = true
    · simp only [if_pos hpref]
      have h0 : extractRange s0 i i = [] := by simp [extractRange]
      have h1 : extractRange s0 i (i + patLen p) = patList p := by
        rw [extractRange, hdrop]
        have h2 : i + patLen p - i = patLen p := by omega
        rw [h2]
        have hpl : patLen p = (patList p).length := by simp [patLen, patList]
        rw [hpl]
        exact isPrefChars_take hpref
      have hdrop2 : s0.drop (i + patLen p) = (c :: t).drop (patLen p) := by
        rw [← List.drop_drop, hdrop]
      have hrec := spliceAux_spansFrom p s0 ((c :: t).drop (patLen p)) (i + patLen p) hdrop2
      simp only [spliceAux]
      rw [h0, h1, hrec]
      simp
    · simp only [if_neg hpref]
      have hge : ∀ sp ∈ spansFrom p t (i + 1), i + 1 ≤ sp.1 :=
        fun sp hsp => spansFrom_start_ge p t (i + 1) sp hsp
      rw [spliceAux_cons_shift s0 c t i hdrop _ hge]
      have hdrop1 : s0.drop (i + 1) = t := by
        rw [← List.drop_drop, hdrop]
        rfl
      rw [spliceAux_spansFrom p s0 t (i + 1) hdrop1]
termination_by s => s.length
decreasing_by
  · simp [patLen]
    omega
  · simp

theorem noLeadWs_lstrip (s : List Char) : noLeadWs (lstripChars s) = true := by
  induction s with
  | nil => rfl
  | cons a as ih =>
    simp only [lstripChars]
    by_cases ha : a.isWhitespace
    · rw [if_pos ha]
      exact ih
    · rw [if_neg ha]
      simp [noLeadWs, ha]

/-- C7: the highlighter returns the line with every non-overlapping match
span replaced in place by its marker-wrapped copy and with leading
whitespace removed from the result (`spansRender` states the contract
positionally over `matchSpans`); in particular the result never starts
with whitespace. -/
theorem c7_highlight_wraps_match_spans_and_lstrips (p : Pat) (line : List Char) :
    highlight_matches line p = spansRender p line ∧
      noLeadWs (highlight_matches line p) = true := by
  constructor
  · rw [highlight_matches, spansRender, matchSpans,
      spliceAux_spansFrom p line line 0 (by simp)]
  · rw [highlight_matches]
    exact noLeadWs_lstrip _

/-! ## C8: stripping the markers -/

/-- C8 counterexample: for the line `"  abc"` and pattern `"abc"`, the
highlighter's `lstrip` shifts everything left; re-matching the
marker-stripped output yields span `(0, 3)`, not the original `(2, 5)`. -/
theorem c8_counterexample :
    matchSpans ('a', "bc".data)
        (stripMarkers (highlight_matches "  abc".data ('a', "bc".data)))
      = [(0, 3)] ∧
      matchSpans ('a', "bc".data) "  abc".data = [(2, 5)] ∧
      ([((0 : Nat), (3 : Nat))] ≠ [((2 : Nat), (5 : Nat))]) :=
  ⟨by decide, by decide, by decide⟩

theorem lstrip_of_noLeadWs {s : List Char} (h : noLeadWs s = true) :
    lstripChars s = s := by
  match s with
  | [] => rfl
  | a :: as =>
    simp only [noLeadWs, Bool.not_eq_true'] at h
    simp [lstripChars, h]

theorem noLeadWs_subPat {p : Pat} {l : List Char} (h : noLeadWs l = true) :
    noLeadWs (subPat p l) = true := by
  match l with
  | [] => rfl
  | c :: t =>
    rw [subPat_cons]
    by_cases hpref : isPrefChars (patList p) (c :: t) = true
    · rw [if_pos hpref]
      rfl
    · rw [if_neg hpref]
      exact h

theorem isPrefChars_refl_append (q z : List Char) :
    isPrefChars q (q ++ z) = true := by
  induction q with
  | nil => simp [isPrefChars]
  | cons a as ih => simp [isPrefChars, ih]

theorem stripMarkers_cons_clean {a : Char} (z : List Char) (ha : a ≠ '\x1b') :
    stripMarkers (a :: z) = a :: stripMarkers z := by
  have hne : ('\x1b' : Char) ≠ a := fun h => ha h.symm
  have hb : isPrefChars bred (a :: z) = false := by
    simp [bred, isPrefChars, hne]
  have he : isPrefChars endc (a :: z) = false := by
    simp [endc, isPrefChars, hne]
  rw [stripMarkers_cons, hb, he]
  simp

theorem stripMarkers_clean_append {x : List Char} (z : List Char)
    (hx : ∀ a ∈ x, a ≠ '\x1b') :
    stripMarkers (x ++ z) = x ++ stripMarkers z := by
  induction x with
  | nil => simp
  | cons a x2 ih =>
    rw [List.cons_append,
      stripMarkers_cons_clean _ (hx a (List.mem_cons_self _ _)),
      ih (fun b hb => hx b (List.mem_cons_of_mem _ hb))]
    simp

theorem stripMarkers_bred (z : List Char) :
    stripMarkers (bred ++ z) = stripMarkers z := by
  have h1 : bred ++ z = '\x1b' :: (['[', '0', '1', ';', '3', '1', 'm'] ++ z) := by
    simp [bred]
  rw [h1, stripMarkers_cons]
  have h2 : isPrefChars bred ('\x1b' :: (['[', '0', '1', ';', '3', '1', 'm'] ++ z))
      = true := by
    have := isPrefChars_refl_append bred z
    rw [h1] at this
    exact this
  rw [h2]
  simp only [if_pos]
  have h3 : ('\x1b' :: (['[', '0', '1', ';', '3', '1', 'm'] ++ z)).drop bred.length
      = z := by
    have h4 : '\x1b' :: (['[', '0', '1', ';', '3', '1', 'm'] ++ z) = bred ++ z := by
      simp [bred]
    rw [h4]
    have h5 : bred.length = 8 := rfl
    rw [h5]
    have h6 : bred ++ z = bred.append z := rfl
    simp [bred]
  rw [h3]

theorem stripMarkers_endc (z : List Char) :
    stripMarkers (endc ++ z) = stripMarkers z := by
  have h1 : endc ++ z = '\x1b' :: (['[', '0', 'm'] ++ z) := by
    simp [endc]
  have hb : isPrefChars bred ('\x1b' :: (['[', '0', 'm'] ++ z)) = false := rfl
  have he : isPrefChars endc ('\x1b' :: (['[', '0', 'm'] ++ z)) = true := by
    have := isPrefChars_refl_append endc z
    rw [h1] at this
    exact this
  rw [h1, stripMarkers_cons, hb, he]
  simp only [Bool.false_eq_true, if_false, if_pos]
  have h3 : ('\x1b' :: (['[', '0', 'm'] ++ z)).drop endc.length = z := by
    simp [endc]
  rw [h3]

theorem stripMarkers_subPat {p : Pat} :
    ∀ (l : List Char), '\x1b' ∉ l → stripMarkers (subPat p l) = l := by
  intro l hesc
  match l with
  | [] => rfl
  | c :: t =>
    rw [subPat_cons]
    by_cases hpref : isPrefChars (patList p) (c :: t) = true
    · rw [if_pos hpref]
      have hassoc : bred ++ patList p ++ endc ++ subPat p ((c :: t).drop (patLen p))
          = bred ++ (patList p ++ (endc ++ subPat p ((c :: t).drop (patLen p)))) := by
        simp
      rw [hassoc, stripMarkers_bred]
      have htake : (c :: t).take (patLen p) = patList p := by
        have hpl : patLen p = (patList p).length := by simp [patLen, patList]
        rw [hpl]
        exact isPrefChars_take hpref
      have hclean : ∀ a ∈ patList p, a ≠ '\x1b' := by
        intro a ha
        have : a ∈ (c :: t).take (patLen p) := htake ▸ ha
        exact fun he => hesc (he ▸ List.mem_of_mem_take this)
      rw [stripMarkers_clean_append _ hclean, stripMarkers_endc]
      have hescd : '\x1b' ∉ (c :: t).drop (patLen p) :=
        fun hm => hesc (List.mem_of_mem_drop hm)
      rw [stripMarkers_subPat ((c :: t).drop (patLen p)) hescd]
      rw [← htake]
      exact List.take_append_drop _ _
    · rw [if_neg hpref]
      have hc : c ≠ '\x1b' := fun h => hesc (h ▸ List.mem_cons_self _ _)
      rw [stripMarkers_cons_clean _ hc]
      have hesct : '\x1b' ∉ t := fun hm => hesc (List.mem_cons_of_mem _ hm)
      rw [stripMarkers_subPat t hesct]
termination_by l => l.length
decreasing_by
  · simp [patLen]
    omega
  · simp

/-- C8 (amended): for every line that does not begin with whitespace and
contains no escape character, removing all highlight-start and reset
markers from the highlighter's output recovers the line exactly, so
re-running the pattern match over the stripped text reproduces exactly the
match spans of the original line. -/
theorem c8_strip_markers_recovers_spans (p : Pat) (line : List Char)
    (h1 : noLeadWs line = true) (h2 : '\x1b' ∉ line) :
    stripMarkers (highlight_matches line p) = line ∧
      matchSpans p (stripMarkers (highlight_matches line p)) = matchSpans p line := by
  have key : stripMarkers (highlight_matches line p) = line := by
    rw [highlight_matches, lstrip_of_noLeadWs (noLeadWs_subPat h1),
      stripMarkers_subPat line h2]
  exact ⟨key, by rw [key]⟩

/-- C8 witness: the line `"xabc"` with pattern `"abc"`. -/
theorem c8_witness :
    (noLeadWs "xabc".data = true ∧ '\x1b' ∉ "xabc".data) ∧
      (stripMarkers (highlight_matches "xabc".data ('a', "bc".data)) = "xabc".data ∧
        matchSpans ('a', "bc".data)
            (stripMarkers (highlight_matches "xabc".data ('a', "bc".data)))
          = matchSpans ('a', "bc".data) "xabc".data) :=
  ⟨⟨by decide, by decide⟩,
   c8_strip_markers_recovers_spans ('a', "bc".data) "xabc".data
     (by decide) (by decide)⟩

end Vaultsearch